import Mathlib

/-!
Verification development for the `timeline` library (seek engine and emitter
composition model).  The TypeScript sources are shallowly embedded: playhead
positions, range durations and progress values are rationals (`ℚ`), the JS
`number` arithmetic the library performs on them (comparison, `+`, `-`, `*`,
`/`, `%`, `Math.min/max/round/floor`) is translated operation by operation,
and the imperative dispatch loops of `Timeline.seekDirect` / `seekPoints` /
`seekRanges` / `seekWrapped` are turned into pure functions that return the
ordered trace of emissions together with the final playhead state.
-/

namespace TimelineSpec

/-- `clamp` from `src/internal/utils.ts`:
`(value, min, max) => Math.min(Math.max(value, min), max)`. -/
def clamp (value lo hi : ℚ) : ℚ := min (max value lo) hi

/-- Truncation toward zero, as performed on JS numbers by the `%` operator. -/
def ratTrunc (q : ℚ) : ℤ := if 0 ≤ q then ⌊q⌋ else ⌈q⌉

/-- The JS remainder operator on numbers: `a % b = a - b * trunc(a / b)`
(result takes the sign of the dividend).  The library only evaluates it with
a positive right operand. -/
def jsMod (a b : ℚ) : ℚ := a - b * ((ratTrunc (a / b) : ℤ) : ℚ)

/-- `Math.round`: round half toward positive infinity. -/
def jsRound (x : ℚ) : ℤ := ⌊x + 1 / 2⌋

/-! ## Emitter operators (`src/internal/emitters.ts`, current `Emitter` class)

`Emitter.dedupe(compare?)` keeps one mutable `previous` cell per derived
emitter and forwards a value iff there is no previous forwarded value or the
comparator (the supplied `compare`, or `===`) rejects equality; `previous` is
updated only when a value is forwarded.  We model a finite sequence of parent
emissions as a list and run that state machine over it. -/

def dedupeRun {α : Type} (eq : α → α → Bool) : Option α → List α → List α
  | _, [] => []
  | none, v :: rest => v :: dedupeRun eq (some v) rest
  | some p, v :: rest =>
    if eq p v then dedupeRun eq (some p) rest
    else v :: dedupeRun eq (some v) rest

/-- `RangeProgression.repeat(count)` (current emitter module): throws a
`RangeError` when `count <= 0` at construction time, otherwise each parent
emission `value` is forwarded as `(value * count) % 1`. -/
def repeatMake (count : ℚ) : Except String (ℚ → ℚ) :=
  if count ≤ 0 then .error "Repeat count must be greater than 0"
  else .ok (fun value => jsMod (value * count) 1)

/-- `RangeProgression.snap(steps)`: throws synchronously at construction
unless `steps` is a positive integer; afterwards each emission is quantised
to `Math.round(progress * steps) / steps`. -/
def snapMake (steps : ℚ) : Except String (ℚ → ℚ) :=
  if ¬ steps.isInt ∨ steps ≤ 0 then
    .error "snap(steps) requires a positive integer"
  else .ok (fun progress => ((jsRound (progress * steps) : ℤ) : ℚ) / steps)

/-! ## Subscription-time behaviour of points and ranges
(`Timeline.point` / `Timeline.range` in `src/internal/timeline.ts`, and
`TimelineRange.contains` in `src/internal/range.ts`).

Handlers are identified by natural-number tags; `createListenable`'s `listen`
pushes the new handler at the end, and `emit` delivers to the handlers
registered at that moment. -/

/-- `TimelineRange.contains` on a number:
`target >= this.startPosition && target < this.endPosition`. -/
def rangeContainsNum (startPos endPos x : ℚ) : Bool :=
  decide (startPos ≤ x) && decide (x < endPos)

/-- The `addHandler` closure built by `Timeline.point(position)`: subscribing
while a seek dispatch runs throws; if `position == currentTime` a
`PointEvent{direction: 1}` is emitted to the handlers already registered on
this point object (the new handler is appended only afterwards).
Returns the deliveries `(handler, direction)` performed during the call and
the updated handler list. -/
def pointAddHandler (seeking : Bool) (position cur : ℚ)
    (handlers : List ℕ) (newH : ℕ) :
    Except String (List (ℕ × Int) × List ℕ) :=
  if seeking then .error "Can't add a listener while seeking"
  else
    .ok ((if position = cur then handlers.map (fun h => (h, (1 : Int))) else []),
      handlers ++ [newH])

/-- The `addHandler` closure built by `Timeline.range(start, duration)`:
zero-duration ranges reject every subscription; otherwise subscribing during
a seek dispatch throws; otherwise, when `range.contains(currentTime)` holds,
the new handler itself immediately receives
`clamp((currentTime - start) / duration, 0, 1)`.  Returns the immediate
emission (if any) and the updated handler list. -/
def rangeAddHandler (seeking : Bool) (startPos dur cur : ℚ)
    (handlers : List ℕ) (newH : ℕ) :
    Except String (Option ℚ × List ℕ) :=
  if dur = 0 then .error "Zero-duration ranges may not be listened"
  else if seeking then .error "Can't add a listener while seeking"
  else
    .ok ((if rangeContainsNum startPos (startPos + dur) cur then
        some (clamp ((cur - startPos) / dur) 0 1)
      else none),
      handlers ++ [newH])

/-! ## The seek dispatch (`Timeline.seekDirect` / `seekPoints` / `seekRanges`)

A registered point is its position; a registered range is the pair
`(position, duration)`.  A seek produces an ordered trace of emissions.
Each trace entry records the value of the private `_currentTime` field at
the instant the emission happens (`seekPoints` assigns
`this._currentTime = p.position` immediately before `p.emit`, while
`seekRanges` leaves `_currentTime` untouched). -/

inductive Ev : Type
  | rangeEmit (start dur progress : ℚ)
  | pointEmit (pos : ℚ) (dir : Int) (curAt : ℚ)
  deriving DecidableEq, Repr

/-- `Timeline.seekRanges(to)`: returns immediately when `_currentTime === to`;
otherwise every registered range `(position, duration)` with
`min(cur,to) <= position + duration && max(cur,to) >= position` emits
`clamp((to - position) / duration, 0, 1)`, in registry order. -/
def seekRangesTrace (ranges : List (ℚ × ℚ)) (cur toPos : ℚ) : List Ev :=
  if cur = toPos then []
  else
    ranges.filterMap (fun r =>
      if min cur toPos ≤ r.1 + r.2 ∧ r.1 ≤ max cur toPos then
        some (Ev.rangeEmit r.1 r.2 (clamp ((toPos - r.1) / r.2) 0 1))
      else none)

/-- The filter applied by `Timeline.seekPoints(to)` to the registered points:
forward (`to > from`) keeps `from < p && p <= to`, backward keeps
`p <= from && to < p`; registry order is preserved. -/
def pointsBetween (pts : List ℚ) (fromPos toPos : ℚ) : List ℚ :=
  if toPos > fromPos then
    pts.filter (fun p => decide (fromPos < p ∧ p ≤ toPos))
  else
    pts.filter (fun p => decide (p ≤ fromPos ∧ toPos < p))

/-- The `PointEvent`s emitted by one `seekPoints(to)` call, as
`(position, direction)` pairs in emission order. -/
def seekPointsEvents (pts : List ℚ) (fromPos toPos : ℚ) : List (ℚ × Int) :=
  (pointsBetween pts fromPos toPos).map
    (fun p => (p, if toPos > fromPos then (1 : Int) else -1))

/-- The `forEach` body of `seekPoints`: for each filtered point `p` (current
playhead `cur`), first `seekRanges(p.position)`, then
`_currentTime = p.position`, then `p.emit({direction})`.  Returns the trace
and the final `_currentTime`. -/
def pointPhase (ranges : List (ℚ × ℚ)) (dir : Int) :
    ℚ → List ℚ → List Ev × ℚ
  | cur, [] => ([], cur)
  | cur, p :: rest =>
    (seekRangesTrace ranges cur p ++
        Ev.pointEmit p dir p :: (pointPhase ranges dir p rest).1,
      (pointPhase ranges dir p rest).2)

/-- `Timeline.seekPoints(to)` starting from playhead `cur` (the code reads
`from = this._currentTime`): direction, filter, then the per-point loop. -/
def seekPointsTraceFn (ranges : List (ℚ × ℚ)) (pts : List ℚ)
    (cur toPos : ℚ) : List Ev × ℚ :=
  pointPhase ranges (if toPos > cur then 1 else -1) cur
    (pointsBetween pts cur toPos)

/-- `Timeline.seekDirect(to)` on the non-wrapping path: no-op when
`to === from`; otherwise `seekPoints(to)` followed by `seekRanges(to)` from
wherever `seekPoints` left the playhead, and finally
`_currentTime = toPosition`. -/
def seekDirectTrace (ranges : List (ℚ × ℚ)) (pts : List ℚ)
    (fromPos toPos : ℚ) : List Ev :=
  if toPos = fromPos then []
  else
    (seekPointsTraceFn ranges pts fromPos toPos).1 ++
      seekRangesTrace ranges (seekPointsTraceFn ranges pts fromPos toPos).2
        toPos

/-- The entry of `Timeline.seek` relevant to the reentrancy contract:
`if (this.seeking) throw new Error(...)` happens before any dispatch, so a
reentrant call produces an exception and no emission at all. -/
def seekEntry (seeking : Bool) (ranges : List (ℚ × ℚ)) (pts : List ℚ)
    (fromPos toPos : ℚ) : Except String (List Ev) :=
  if seeking then .error "Can't seek while a seek event is processed"
  else .ok (seekDirectTrace ranges pts fromPos toPos)

/-! ## Smooth-seek interruption (`Timeline.seek(to, durationMs, easer?)`)

A smooth seek creates a disposable driver `Timeline` carrying one registered
range `(0, durationMs)` (subscribed through
`.ease(easer).tween(currentTime, toPosition).apply(v => this.seekDirect(v))`)
and one registered point at `durationMs` (subscribed by
`seeker.end.promise()`).  Interruption force-completes it:
`smoothSeeker.pause(); smoothSeeker.seekDirect(end.position)` — inside which
the driver's `seekPoints` settles the driver range first (dragging the parent
to the tween value at progress 1) and then fires the driver's end point — and
finally `this.seekDirect(interruptPosition)` restores the parent playhead
before the new seek is applied. -/

/-- `blendNumbers` from `src/internal/tween.ts`:
`(from, to, progress) => from + progress * (to - from)`. -/
def tweenNum (fromV toV progress : ℚ) : ℚ := fromV + progress * (toV - fromV)

structure Seeker : Type where
  startPos : ℚ
  target : ℚ
  durationMs : ℚ
  driverPos : ℚ
  deriving DecidableEq, Repr

structure TLState : Type where
  cur : ℚ
  seeker : Option Seeker
  deriving DecidableEq, Repr

inductive SeekOp : Type
  /-- a `this.seekDirect(toPos)` call on the parent Timeline -/
  | parentSeekDirect (fromPos toPos : ℚ)
  /-- the interrupted driver's end point emits a `PointEvent{direction}`
  (this is what invokes the `resolve` captured by `promise()`) -/
  | driverEndFired (dir : Int)
  deriving DecidableEq, Repr

/-- The `if (this.smoothSeeker !== null)` block of `Timeline.seek`, with the
driver's own `seekDirect(durationMs)` dispatch inlined (driver registry: the
range `(0, durationMs)` and the end point at `durationMs`).  When the driver
already sits at its end the driver `seekDirect` returns without dispatching.
The parent ends back at `interruptPosition` and the seeker slot is cleared. -/
def forceComplete (easer : ℚ → ℚ) (st : TLState) : TLState × List SeekOp :=
  match st.seeker with
  | none => (st, [])
  | some s =>
    if s.driverPos = s.durationMs then
      ({ cur := st.cur, seeker := none },
        [SeekOp.parentSeekDirect st.cur st.cur])
    else
      let v := tweenNum s.startPos s.target
        (easer (clamp ((s.durationMs - 0) / s.durationMs) 0 1))
      ({ cur := st.cur, seeker := none },
        [SeekOp.parentSeekDirect st.cur v,
         SeekOp.driverEndFired 1,
         SeekOp.parentSeekDirect v st.cur])

/-- `Timeline.seek(to[, durationMs, easer])` entered with `seeking = false`:
force-complete any in-progress smooth seek, then either seek directly
(`durOpt = none` models an omitted/zero duration) or install a new smooth
seeker.  Installing the seeker subscribes the driver range, whose
catch-up emission at driver position 0 immediately calls
`this.seekDirect(tween(easer(0)))` on the parent. -/
def seekModel (easer : ℚ → ℚ) (st : TLState) (toPos : ℚ)
    (durOpt : Option ℚ) : TLState × List SeekOp :=
  let fc := forceComplete easer st
  match durOpt with
  | none =>
    ({ cur := toPos, seeker := none },
      fc.2 ++ [SeekOp.parentSeekDirect fc.1.cur toPos])
  | some d =>
    let v0 := tweenNum fc.1.cur toPos (easer (clamp ((0 - 0) / d) 0 1))
    ({ cur := v0, seeker := some ⟨fc.1.cur, toPos, d, 0⟩ },
      fc.2 ++ [SeekOp.parentSeekDirect fc.1.cur v0])

/-! ## `Timeline.seekWrapped` (endAction `wrap`) -/

/-- `getWrappedPosition` inside `seekWrapped`:
`pos => ((pos - wrapAt) % loopLen + loopLen) % loopLen + wrapAt`. -/
def getWrappedPosition (wrapAt loopLen pos : ℚ) : ℚ :=
  jsMod (jsMod (pos - wrapAt) loopLen + loopLen) loopLen + wrapAt

/-- Termination measure for the `while (remaining > 0)` loop of
`seekWrapped`: an upper bound on the number of remaining iterations. -/
def wrapMeasure (wrapAt E : ℚ) (dir : Int) (vFrom remaining : ℚ) : ℕ :=
  (⌈(remaining - (if dir > 0 then E - vFrom else vFrom - wrapAt)) /
      (E - wrapAt)⌉ + 1).toNat

theorem ceil_div_sub_one {L x : ℚ} (hL : L ≠ 0) :
    ⌈(x - L) / L⌉ = ⌈x / L⌉ - 1 := by
  have hx : (x - L) / L = x / L - (1 : ℤ) := by
    push_cast
    field_simp
  rw [hx, Int.ceil_sub_int]

theorem wrap_measure_aux {L cap remaining : ℚ} (hL : 0 < L)
    (h : 0 < remaining - |cap|) :
    (⌈(remaining - |cap| - L) / L⌉ + 1).toNat <
      (⌈(remaining - cap) / L⌉ + 1).toNat := by
  have h1 : ⌈(remaining - |cap| - L) / L⌉ = ⌈(remaining - |cap|) / L⌉ - 1 :=
    ceil_div_sub_one (ne_of_gt hL)
  have h2 : (1 : ℤ) ≤ ⌈(remaining - |cap|) / L⌉ := by
    have : (0 : ℚ) < (remaining - |cap|) / L := div_pos h hL
    exact Int.ceil_pos.mpr this
  have h3 : remaining - |cap| ≤ remaining - cap := by
    have := le_abs_self cap
    linarith
  have h4 : ⌈(remaining - |cap|) / L⌉ ≤ ⌈(remaining - cap) / L⌉ :=
    Int.ceil_mono (div_le_div_of_nonneg_right h3 hL.le)
  omega

/-- The `virtualTo` computed by one iteration of the `seekWrapped` loop. -/
def wrapLegTo (wrapAt E : ℚ) (dir : Int) (vFrom remaining : ℚ) : ℚ :=
  if dir > 0 then
    (if remaining ≤ E - vFrom then vFrom + remaining else E)
  else
    (if remaining ≤ vFrom - wrapAt then vFrom - remaining else wrapAt)

/-- Where the next leg restarts when travel remains: the wrap anchor going
forward, the timeline end going backward. -/
def wrapAnchor (wrapAt E : ℚ) (dir : Int) : ℚ := if dir > 0 then wrapAt else E

theorem wrapMeasure_decreasing (wrapAt E : ℚ) (dir : Int)
    (vFrom remaining : ℚ)
    (h2 : 0 < remaining - |wrapLegTo wrapAt E dir vFrom remaining - vFrom| ∧
      wrapAt < E) :
    wrapMeasure wrapAt E dir (wrapAnchor wrapAt E dir)
      (remaining - |wrapLegTo wrapAt E dir vFrom remaining - vFrom|) <
    wrapMeasure wrapAt E dir vFrom remaining := by
  have hL : 0 < E - wrapAt := by linarith [h2.2]
  by_cases hd : dir > 0
  · simp only [wrapLegTo, wrapAnchor, wrapMeasure, hd, if_true] at h2 ⊢
    by_cases hle : remaining ≤ E - vFrom
    · exfalso
      rw [if_pos hle] at h2
      have habs : |vFrom + remaining - vFrom| = |remaining| := by
        rw [show vFrom + remaining - vFrom = remaining by ring]
      rw [habs] at h2
      linarith [le_abs_self remaining, h2.1]
    · rw [if_neg hle] at h2 ⊢
      exact wrap_measure_aux hL h2.1
  · simp only [wrapLegTo, wrapAnchor, wrapMeasure, hd, if_false] at h2 ⊢
    by_cases hle : remaining ≤ vFrom - wrapAt
    · exfalso
      rw [if_pos hle] at h2
      have habs : |vFrom - remaining - vFrom| = |remaining| := by
        rw [show vFrom - remaining - vFrom = -remaining by ring, abs_neg]
      rw [habs] at h2
      linarith [le_abs_self remaining, h2.1]
    · rw [if_neg hle, abs_sub_comm wrapAt vFrom] at h2 ⊢
      exact wrap_measure_aux hL h2.1

/-- The `while (remaining > 0)` loop of `seekWrapped`.  Each iteration sets
`_currentTime = virtualFrom`, runs `seekPoints(virtualTo)`, subtracts the leg
length from `remaining` and, when travel remains, restarts the next leg from
the wrap anchor (forward) or the timeline end (backward).  `cur0` is the
playhead in case the loop body never runs.  The recursion additionally stops
if `wrapAt < E` fails — in the source that situation (`loopLen <= 0`) never
reaches the loop with positive `remaining` except through NaN arithmetic /
non-termination, which has no counterpart on `ℚ`. -/
def wrapLoop (ranges : List (ℚ × ℚ)) (pts : List ℚ) (wrapAt E : ℚ)
    (dir : Int) (vFrom remaining cur0 : ℚ) : List Ev × ℚ :=
  if remaining ≤ 0 then ([], cur0)
  else
    let virtualTo := wrapLegTo wrapAt E dir vFrom remaining
    let leg := seekPointsTraceFn ranges pts vFrom virtualTo
    if h2 : 0 < remaining - |virtualTo - vFrom| ∧ wrapAt < E then
      let rest := wrapLoop ranges pts wrapAt E dir (wrapAnchor wrapAt E dir)
        (remaining - |virtualTo - vFrom|) leg.2
      (leg.1 ++ rest.1, rest.2)
    else (leg.1, leg.2)
  termination_by wrapMeasure wrapAt E dir vFrom remaining
  decreasing_by exact wrapMeasure_decreasing wrapAt E dir vFrom remaining h2

/-- `Timeline.seekWrapped(toPosition)` (called by `seekDirect` when the end
action is `wrap` and `from > end || to > end`): wrap the start position, run
the leg loop, then `seekRanges(getWrappedPosition(toPosition))` from wherever
the loop left `_currentTime`, and finally `_currentTime = toPosition`. -/
def seekWrappedTrace (ranges : List (ℚ × ℚ)) (pts : List ℚ)
    (wrapAt E fromPos toPos : ℚ) : List Ev × ℚ :=
  let loopLen := E - wrapAt
  let dir : Int := if toPos - fromPos ≥ 0 then 1 else -1
  let remaining := |toPos - fromPos|
  let vFrom := getWrappedPosition wrapAt loopLen fromPos
  let res := wrapLoop ranges pts wrapAt E dir vFrom remaining fromPos
  (res.1 ++
      seekRangesTrace ranges res.2 (getWrappedPosition wrapAt loopLen toPos),
    toPos)

/-- The point events `(pos, dir, curAt)` of a trace, in order. -/
def pointEvents : List Ev → List (ℚ × Int × ℚ)
  | [] => []
  | Ev.rangeEmit _ _ _ :: rest => pointEvents rest
  | Ev.pointEmit p d c :: rest => (p, d, c) :: pointEvents rest

/-! ## `Timeline.next(delta)` under the `restart` end action -/

/-- Termination measure for the `while (delta > 0)` loop of `Timeline.next`. -/
def restartMeasure (E anchor cur delta : ℚ) : ℕ :=
  (⌈(delta - (E - cur)) / (E - anchor)⌉ + 1).toNat

/-- The `while (delta > 0)` loop of `Timeline.next` for
`endAction = restart(anchor)` (entered when `loopLen > 0`): each iteration
either performs the final partial `seek(currentTime + delta)` or performs
`seek(endPosition)` followed by `seek(anchor)` and loops with the rest of the
delta.  Returns the `seek` calls as `(from, to)` segments plus the final
playhead.  (The `anchor < E` guard mirrors the caller's `loopLen > 0` check;
it only re-checks what `Timeline.next` established before entering.) -/
def restartLoop (E anchor : ℚ) (cur delta : ℚ) : List (ℚ × ℚ) × ℚ :=
  if delta ≤ 0 then ([], cur)
  else if delta < E - cur then ([(cur, cur + delta)], cur + delta)
  else if h : anchor < E then
    let rest := restartLoop E anchor anchor (delta - (E - cur))
    ((cur, E) :: (E, anchor) :: rest.1, rest.2)
  else ([], cur)
  termination_by restartMeasure E anchor cur delta
  decreasing_by
    rename_i hpos hlt
    simp only [restartMeasure]
    have hL : 0 < E - anchor := by linarith
    have h1 : ⌈(delta - (E - cur) - (E - anchor)) / (E - anchor)⌉ =
        ⌈(delta - (E - cur)) / (E - anchor)⌉ - 1 :=
      ceil_div_sub_one (ne_of_gt hL)
    have h2 : (0 : ℤ) ≤ ⌈(delta - (E - cur)) / (E - anchor)⌉ := by
      have hd : (0 : ℚ) ≤ delta - (E - cur) := by linarith
      have : (0 : ℚ) ≤ (delta - (E - cur)) / (E - anchor) :=
        div_nonneg hd (le_of_lt hL)
      exact Int.ceil_nonneg this
    omega

/-- `Timeline.next(delta)` for `endAction = restart(anchor)`: no overshoot
means a single plain seek; an overshoot with `loopLen <= 0` clamps to
`min(currentTime + delta, endPosition)`; otherwise the restart loop runs.
Segments are the `seek` calls performed, in order. -/
def nextRestart (E anchor cur delta : ℚ) : List (ℚ × ℚ) × ℚ :=
  if cur + delta ≤ E then ([(cur, cur + delta)], cur + delta)
  else if E - anchor ≤ 0 then
    ([(cur, min (cur + delta) E)], min (cur + delta) E)
  else restartLoop E anchor cur delta

/-- How often the point at position `P` fires with direction `+1` over a
sequence of seek calls, read off from the `seekPoints` model. -/
def forwardFireCount (P : ℚ) (segs : List (ℚ × ℚ)) : ℕ :=
  (segs.filter
    (fun s => decide ((P, (1 : Int)) ∈ seekPointsEvents [P] s.1 s.2))).length

/-! # Theorems -/

/-! ## C7 — dedupe -/

theorem dedupeRun_some_eq_destutter {α : Type} (eq : α → α → Bool) (x : α)
    (l : List α) :
    x :: dedupeRun eq (some x) l = l.destutter' (fun a b => eq a b = false) x := by
  induction l generalizing x with
  | nil => simp [dedupeRun, List.destutter']
  | cons v rest ih =>
    by_cases h : eq x v
    · have hr : ¬ ((fun a b => eq a b = false) x v) := by simp [h]
      rw [List.destutter'_cons_neg rest hr,
        show dedupeRun eq (some x) (v :: rest) = dedupeRun eq (some x) rest
          from by simp [dedupeRun, h]]
      exact ih x
    · have hr : (fun a b => eq a b = false) x v := by simp [h]
      rw [List.destutter'_cons_pos rest hr,
        show dedupeRun eq (some x) (v :: rest) = v :: dedupeRun eq (some v) rest
          from by simp [dedupeRun, h]]
      rw [ih v]

/-- **C7**: over any finite parent emission sequence, `dedupe()` (with the
supplied comparator, or `===` modelled as an abstract boolean test) forwards
exactly the input with consecutive duplicates removed (`List.destutter` of
the negated comparator), so no two consecutive forwarded values compare
equal, and the first parent emission is always forwarded. -/
theorem c7_dedupe_law {α : Type} (eq : α → α → Bool) (l : List α) :
    dedupeRun eq none l = l.destutter (fun a b => eq a b = false) ∧
    (dedupeRun eq none l).Chain' (fun a b => eq a b = false) ∧
    (∀ v rest, l = v :: rest → (dedupeRun eq none l).head? = some v) := by
  have hmain : dedupeRun eq none l = l.destutter (fun a b => eq a b = false) := by
    cases l with
    | nil => simp [dedupeRun, List.destutter]
    | cons v rest =>
      simp only [dedupeRun, List.destutter]
      exact dedupeRun_some_eq_destutter eq v rest
  refine ⟨hmain, ?_, ?_⟩
  · rw [hmain]
    exact List.destutter_is_chain' _ l
  · intro v rest hl
    subst hl
    simp [dedupeRun]

theorem c7_dedupe_law_witness :
    (dedupeRun (fun a b : ℕ => a == b) none [1, 1, 2, 2, 1]).head? = some 1 :=
  (c7_dedupe_law (fun a b : ℕ => a == b) [1, 1, 2, 2, 1]).2.2 1 [1, 2, 2, 1] rfl

/-! ## C8 — repeat -/

/-- **C8 (counterexample)**: `repeat(0)` does not succeed — the current
`RangeProgression.repeat` throws a `RangeError` at construction for any
`count <= 0` instead of flooring the count at 0. -/
theorem c8_repeat_counterexample :
    repeatMake 0 = Except.error "Repeat count must be greater than 0" := by
  simp [repeatMake]

/-- **C8 (amended)**: `repeat(n)` with `n > 0` succeeds, and on a progress
value `v >= 0` the derived emitter emits `(v * n) mod 1`, i.e. the
fractional part of `v * n`, which lies in `[0, 1)`; `repeat(n)` with
`n <= 0` throws a `RangeError` at construction. -/
theorem c8_repeat_amended (n v : ℚ) (hn : 0 < n) (hv : 0 ≤ v) :
    repeatMake n = Except.ok (fun value => jsMod (value * n) 1) ∧
    jsMod (v * n) 1 = v * n - ⌊v * n⌋ ∧
    0 ≤ jsMod (v * n) 1 ∧ jsMod (v * n) 1 < 1 ∧
    (∀ m : ℚ, m ≤ 0 → (repeatMake m).isOk = false) := by
  have hok : repeatMake n = Except.ok (fun value => jsMod (value * n) 1) := by
    simp [repeatMake, not_le.mpr hn]
  have hvn : (0 : ℚ) ≤ v * n := mul_nonneg hv hn.le
  have hmod : jsMod (v * n) 1 = v * n - ⌊v * n⌋ := by
    simp [jsMod, ratTrunc, hvn]
  refine ⟨hok, hmod, ?_, ?_, ?_⟩
  · rw [hmod]
    exact sub_nonneg.mpr (Int.floor_le _)
  · rw [hmod]
    have := Int.lt_floor_add_one (v * n)
    linarith
  · intro m hm
    have herr : repeatMake m = Except.error "Repeat count must be greater than 0" := by
      simp [repeatMake, hm]
    rw [herr]
    rfl

theorem c8_repeat_amended_witness :
    repeatMake 2 = Except.ok (fun value => jsMod (value * 2) 1) ∧
    jsMod (3 / 4 * 2) 1 = 3 / 4 * 2 - ⌊(3 / 4 * 2 : ℚ)⌋ ∧
    0 ≤ jsMod (3 / 4 * 2 : ℚ) 1 ∧ jsMod (3 / 4 * 2 : ℚ) 1 < 1 ∧
    (∀ m : ℚ, m ≤ 0 → (repeatMake m).isOk = false) :=
  c8_repeat_amended 2 (3 / 4) (by norm_num) (by norm_num)

/-! ## C9 — fail-fast contract violations -/

/-- **C9**: each contract violation raises a synchronous exception and
performs no emission: (a) `seek` while a seek dispatch is executing;
(b) subscribing a point handler while a seek dispatch is executing;
(c) subscribing a range handler while a seek dispatch is executing
(duration nonzero — the zero-duration error takes precedence otherwise);
(d) subscribing any handler to a zero-duration range, seeking or not;
(e) `snap(steps)` with a non-integer or non-positive step count throws at
construction of the derived emitter, before any emission can occur.
In the `Except` embeddings an `error` result carries no emission. -/
theorem c9_fail_fast (ranges : List (ℚ × ℚ)) (pts : List ℚ)
    (fromPos toPos startPos dur cur pos steps : ℚ) (hs : List ℕ) (h : ℕ)
    (seeking : Bool) (hdur : dur ≠ 0) (hsnap : ¬ steps.isInt ∨ steps ≤ 0) :
    seekEntry true ranges pts fromPos toPos =
      Except.error "Can't seek while a seek event is processed" ∧
    pointAddHandler true pos cur hs h =
      Except.error "Can't add a listener while seeking" ∧
    rangeAddHandler true startPos dur cur hs h =
      Except.error "Can't add a listener while seeking" ∧
    rangeAddHandler seeking startPos 0 cur hs h =
      Except.error "Zero-duration ranges may not be listened" ∧
    snapMake steps = Except.error "snap(steps) requires a positive integer" := by
  refine ⟨rfl, rfl, ?_, ?_, ?_⟩
  · simp [rangeAddHandler, hdur]
  · simp [rangeAddHandler]
  · simp only [snapMake]
    rw [if_pos hsnap]

theorem c9_fail_fast_witness :
    seekEntry true [] [] 0 1 =
      Except.error "Can't seek while a seek event is processed" ∧
    pointAddHandler true 5 5 [] 0 =
      Except.error "Can't add a listener while seeking" ∧
    rangeAddHandler true 0 10 5 [] 0 =
      Except.error "Can't add a listener while seeking" ∧
    rangeAddHandler false 0 0 5 [] 0 =
      Except.error "Zero-duration ranges may not be listened" ∧
    snapMake (-3) = Except.error "snap(steps) requires a positive integer" :=
  c9_fail_fast [] [] 0 1 0 10 5 5 (-3) [] 0 false (by norm_num)
    (Or.inr (by norm_num))

/-! ## C10 — subscribing a point at the current position -/

/-- **C10**: subscribing a handler to a point whose position equals
`currentTime` (outside a seek) does not invoke the new handler; a
`PointEvent` with direction `+1` is delivered exactly to the handlers that
were already subscribed to that point object, and to nobody when there were
none; the new handler is only appended afterwards. -/
theorem c10_point_subscribe_at_current (pos cur : ℚ) (hs : List ℕ)
    (hnew : ℕ) (hpos : pos = cur) (hmem : hnew ∉ hs) :
    pointAddHandler false pos cur hs hnew =
      Except.ok (hs.map (fun x => (x, (1 : Int))), hs ++ [hnew]) ∧
    (∀ d : Int, (hnew, d) ∉ hs.map (fun x => (x, (1 : Int)))) ∧
    (hs = [] → hs.map (fun x => (x, (1 : Int))) = []) := by
  refine ⟨?_, ?_, ?_⟩
  · simp [pointAddHandler, hpos]
  · intro d hd
    rcases List.mem_map.mp hd with ⟨x, hx, hxe⟩
    have : x = hnew := congrArg Prod.fst hxe
    exact hmem (this ▸ hx)
  · intro h0
    simp [h0]

theorem c10_point_subscribe_witness :
    pointAddHandler false 5 5 [3, 4] 9 =
      Except.ok ([3, 4].map (fun x => (x, (1 : Int))), [3, 4] ++ [9]) ∧
    (∀ d : Int, ((9 : ℕ), d) ∉ [3, 4].map (fun x => (x, (1 : Int)))) ∧
    ([3, 4] = ([] : List ℕ) → [3, 4].map (fun x => (x, (1 : Int))) = []) :=
  c10_point_subscribe_at_current 5 5 [3, 4] 9 rfl (by norm_num)

/-! ## C6 — range subscription catch-up -/

/-- **C6 (counterexample)**: subscribing while `currentTime` equals the
range's end position performs **no** immediate emission —
`TimelineRange.contains` tests `target < endPosition` exclusively, so the
claimed closed-boundary `[start, start + duration]` emission (which would be
`clamp(1) = 1` here) does not happen. -/
theorem c6_subscribe_counterexample :
    rangeAddHandler false 0 10 10 [] 7 = Except.ok (none, [7]) ∧
    (none : Option ℚ) ≠ some (clamp ((10 - 0) / 10) 0 1) := by
  constructor
  · simp [rangeAddHandler, rangeContainsNum]
  · simp

/-- **C6 (amended)**: for a range with `duration > 0`, subscribing with
`currentTime` in the half-open interval `[start, start + duration)`
immediately and synchronously invokes the new handler exactly once with
`clamp((currentTime - start) / duration, 0, 1)`, before the subscribe call
returns; subscribing with `currentTime` outside that interval (including
exactly at `start + duration`) performs no immediate emission. -/
theorem c6_subscribe_amended (startPos dur cur : ℚ) (hs : List ℕ) (h : ℕ)
    (hdur : 0 < dur) :
    (startPos ≤ cur ∧ cur < startPos + dur →
      rangeAddHandler false startPos dur cur hs h =
        Except.ok (some (clamp ((cur - startPos) / dur) 0 1), hs ++ [h])) ∧
    (cur < startPos ∨ startPos + dur ≤ cur →
      rangeAddHandler false startPos dur cur hs h =
        Except.ok (none, hs ++ [h])) := by
  constructor
  · rintro ⟨h1, h2⟩
    simp [rangeAddHandler, rangeContainsNum, ne_of_gt hdur, h1, h2]
  · intro hout
    have hcontains : rangeContainsNum startPos (startPos + dur) cur = false := by
      rcases hout with h1 | h2
      · simp [rangeContainsNum, not_le.mpr h1]
      · simp [rangeContainsNum, not_lt.mpr h2]
    simp [rangeAddHandler, ne_of_gt hdur, hcontains]

theorem c6_subscribe_amended_witness :
    ((0 : ℚ) ≤ 5 ∧ (5 : ℚ) < 0 + 10 →
      rangeAddHandler false 0 10 5 [] 7 =
        Except.ok (some (clamp ((5 - 0) / 10) 0 1), [] ++ [7])) ∧
    ((5 : ℚ) < 0 ∨ (0 : ℚ) + 10 ≤ 5 →
      rangeAddHandler false 0 10 5 [] 7 = Except.ok (none, [] ++ [7])) :=
  c6_subscribe_amended 0 10 5 [] 7 (by norm_num)

/-! ## C1 — which points fire, and in which order -/

/-- **C1**: for an instantaneous seek over a registry sorted in the
direction of travel (`sortEntries` guarantees this before dispatch): a
forward seek fires exactly the registered points with `from < p <= to`, each
as a `PointEvent` with direction `+1`, in ascending position order — in
particular a forward seek landing exactly on a point fires it; a backward
seek fires exactly the points with `to < p <= from`, each with direction
`-1`, in descending order — in particular a backward seek landing exactly on
a point does not fire it. -/
theorem c1_seek_point_firing (pts : List ℚ) (f t : ℚ)
    (hfwd : f < t → pts.Sorted (· < ·))
    (hbwd : t < f → pts.Sorted (· > ·)) :
    (f < t →
      (∀ p : ℚ, (p, (1 : Int)) ∈ seekPointsEvents pts f t ↔
        p ∈ pts ∧ f < p ∧ p ≤ t) ∧
      ((seekPointsEvents pts f t).map Prod.fst).Sorted (· < ·) ∧
      (∀ e ∈ seekPointsEvents pts f t, e.2 = 1) ∧
      (t ∈ pts → (t, (1 : Int)) ∈ seekPointsEvents pts f t)) ∧
    (t < f →
      (∀ p : ℚ, (p, (-1 : Int)) ∈ seekPointsEvents pts f t ↔
        p ∈ pts ∧ t < p ∧ p ≤ f) ∧
      ((seekPointsEvents pts f t).map Prod.fst).Sorted (· > ·) ∧
      (∀ e ∈ seekPointsEvents pts f t, e.2 = -1) ∧
      ((t, (-1 : Int)) ∉ seekPointsEvents pts f t)) := by
  constructor
  · intro hft
    have hev : seekPointsEvents pts f t =
        (pts.filter (fun p => decide (f < p ∧ p ≤ t))).map
          (fun p => (p, (1 : Int))) := by
      simp [seekPointsEvents, pointsBetween, hft]
    have hmem : ∀ p : ℚ, (p, (1 : Int)) ∈ seekPointsEvents pts f t ↔
        p ∈ pts ∧ f < p ∧ p ≤ t := by
      intro p
      rw [hev]
      constructor
      · intro hp
        rcases List.mem_map.mp hp with ⟨q, hq, hqe⟩
        rcases List.mem_filter.mp hq with ⟨hq1, hq2⟩
        have hqp : q = p := congrArg Prod.fst hqe
        subst hqp
        exact ⟨hq1, of_decide_eq_true hq2⟩
      · rintro ⟨h1, h2, h3⟩
        exact List.mem_map.mpr ⟨p,
          List.mem_filter.mpr ⟨h1, decide_eq_true ⟨h2, h3⟩⟩, rfl⟩
    refine ⟨hmem, ?_, ?_, ?_⟩
    · rw [hev, List.map_map]
      have : (Prod.fst ∘ fun p : ℚ => (p, (1 : Int))) = id := rfl
      rw [this, List.map_id]
      exact List.Pairwise.filter _ (hfwd hft)
    · intro e he
      rw [hev] at he
      rcases List.mem_map.mp he with ⟨q, _, hqe⟩
      rw [← hqe]
    · intro ht
      exact (hmem t).mpr ⟨ht, hft, le_refl t⟩
  · intro htf
    have hnft : ¬ (t > f) := not_lt.mpr htf.le
    have hev : seekPointsEvents pts f t =
        (pts.filter (fun p => decide (p ≤ f ∧ t < p))).map
          (fun p => (p, (-1 : Int))) := by
      simp [seekPointsEvents, pointsBetween, hnft]
    have hmem : ∀ p : ℚ, (p, (-1 : Int)) ∈ seekPointsEvents pts f t ↔
        p ∈ pts ∧ t < p ∧ p ≤ f := by
      intro p
      rw [hev]
      constructor
      · intro hp
        rcases List.mem_map.mp hp with ⟨q, hq, hqe⟩
        rcases List.mem_filter.mp hq with ⟨hq1, hq2⟩
        have hqp : q = p := congrArg Prod.fst hqe
        subst hqp
        exact ⟨hq1, (of_decide_eq_true hq2).2, (of_decide_eq_true hq2).1⟩
      · rintro ⟨h1, h2, h3⟩
        exact List.mem_map.mpr ⟨p,
          List.mem_filter.mpr ⟨h1, decide_eq_true ⟨h3, h2⟩⟩, rfl⟩
    refine ⟨hmem, ?_, ?_, ?_⟩
    · rw [hev, List.map_map]
      have : (Prod.fst ∘ fun p : ℚ => (p, (-1 : Int))) = id := rfl
      rw [this, List.map_id]
      exact List.Pairwise.filter _ (hbwd htf)
    · intro e he
      rw [hev] at he
      rcases List.mem_map.mp he with ⟨q, _, hqe⟩
      rw [← hqe]
    · intro hmemT
      have := ((hmem t).mp hmemT).2.1
      exact lt_irrefl t this

theorem c1_seek_point_firing_witness :
    ((2 : ℚ), (1 : Int)) ∈ seekPointsEvents [1, 2, 3] 0 2 :=
  (((c1_seek_point_firing [1, 2, 3] 0 2 (fun _ => by decide)
      (fun h => absurd h (by norm_num))).1 (by norm_num)).2.2.2)
    (by norm_num)

/-! ## C3 — interrupting a smooth seek -/

/-- **C3**: calling `seek` while a smooth seek is in progress first
force-completes the old one: the nested driver is paused and seeked directly
to its end position, whose range settlement drags the parent to the old
seek's own stored target (`tween` at eased progress 1) and whose end point
then fires (direction `+1`, resolving any pending `promise()`/`.then()`
consumers); the parent is put back at the interruption position, and only
after all of that does the new seek apply.  An instantaneous new seek leaves
no seeker; a smooth new seek installs exactly one new seeker (the state
holds at most one seeker at any time by construction). -/
theorem c3_smooth_seek_interruption (easer : ℚ → ℚ) (st : TLState)
    (s : Seeker) (newTarget d : ℚ)
    (hseek : st.seeker = some s)
    (hprog : s.driverPos ≠ s.durationMs)
    (hdur : s.durationMs ≠ 0)
    (heaser : easer 1 = 1) :
    seekModel easer st newTarget none =
      ({ cur := newTarget, seeker := none },
        [SeekOp.parentSeekDirect st.cur s.target,
         SeekOp.driverEndFired 1,
         SeekOp.parentSeekDirect s.target st.cur,
         SeekOp.parentSeekDirect st.cur newTarget]) ∧
    ((seekModel easer st newTarget none).2.get? 1 =
        some (SeekOp.driverEndFired 1) ∧
      (seekModel easer st newTarget none).2.get? 3 =
        some (SeekOp.parentSeekDirect st.cur newTarget)) ∧
    (easer 0 = 0 →
      (seekModel easer st newTarget (some d)).1.seeker =
        some ⟨st.cur, newTarget, d, 0⟩ ∧
      (seekModel easer st newTarget (some d)).1.cur = st.cur ∧
      (seekModel easer st newTarget (some d)).2 =
        [SeekOp.parentSeekDirect st.cur s.target,
         SeekOp.driverEndFired 1,
         SeekOp.parentSeekDirect s.target st.cur,
         SeekOp.parentSeekDirect st.cur st.cur]) := by
  have hprogress : clamp ((s.durationMs - 0) / s.durationMs) 0 1 = 1 := by
    rw [sub_zero, div_self hdur]
    simp [clamp]
  have htw : tweenNum s.startPos s.target 1 = s.target := by
    unfold tweenNum
    ring
  have hfc : forceComplete easer st =
      ({ cur := st.cur, seeker := none },
        [SeekOp.parentSeekDirect st.cur s.target,
         SeekOp.driverEndFired 1,
         SeekOp.parentSeekDirect s.target st.cur]) := by
    simp only [forceComplete, hseek]
    rw [if_neg hprog, hprogress, heaser, htw]
  have hinstant : seekModel easer st newTarget none =
      ({ cur := newTarget, seeker := none },
        [SeekOp.parentSeekDirect st.cur s.target,
         SeekOp.driverEndFired 1,
         SeekOp.parentSeekDirect s.target st.cur,
         SeekOp.parentSeekDirect st.cur newTarget]) := by
    simp [seekModel, hfc]
  refine ⟨hinstant, ⟨?_, ?_⟩, ?_⟩
  · rw [hinstant]
    rfl
  · rw [hinstant]
    rfl
  · intro heaser0
    have hc0 : clamp 0 0 1 = 0 := by
      simp [clamp]
    have htw0 : tweenNum st.cur newTarget 0 = st.cur := by
      unfold tweenNum
      ring
    refine ⟨?_, ?_, ?_⟩ <;>
      simp [seekModel, hfc, hc0, heaser0, htw0]

theorem c3_smooth_seek_interruption_witness :
    seekModel id ⟨40, some ⟨10, 100, 500, 200⟩⟩ 7 none =
      ({ cur := 7, seeker := none },
        [SeekOp.parentSeekDirect 40 100,
         SeekOp.driverEndFired 1,
         SeekOp.parentSeekDirect 100 40,
         SeekOp.parentSeekDirect 40 7]) :=
  (c3_smooth_seek_interruption id ⟨40, some ⟨10, 100, 500, 200⟩⟩
    ⟨10, 100, 500, 200⟩ 7 300 rfl (by norm_num) (by norm_num) rfl).1

/-! ## C5 — restart end action -/

theorem endFire_mem (P a b : ℚ) :
    ((P, (1 : Int)) ∈ seekPointsEvents [P] a b) ↔ (a < P ∧ P ≤ b) := by
  by_cases h : b > a
  · simp only [seekPointsEvents, pointsBetween, if_pos h]
    by_cases hp : a < P ∧ P ≤ b
    · simp [List.filter_cons, hp]
    · simp only [List.filter_cons, List.filter_nil, decide_eq_true_eq]
      rw [if_neg hp]
      simp [hp]
  · simp only [seekPointsEvents, pointsBetween, if_neg h]
    constructor
    · intro hm
      rcases List.mem_map.mp hm with ⟨q, _, hqe⟩
      have : (1 : Int) = -1 := congrArg Prod.snd hqe |>.symm
      exact absurd this (by norm_num)
    · rintro ⟨h1, h2⟩
      exact absurd (lt_of_lt_of_le h1 h2) h

theorem forwardFireCount_nil (P : ℚ) : forwardFireCount P [] = 0 := rfl

theorem forwardFireCount_cons (P : ℚ) (s : ℚ × ℚ) (rest : List (ℚ × ℚ)) :
    forwardFireCount P (s :: rest) =
      (if (P, (1 : Int)) ∈ seekPointsEvents [P] s.1 s.2 then 1 else 0) +
        forwardFireCount P rest := by
  simp only [forwardFireCount, List.filter_cons]
  by_cases h : (P, (1 : Int)) ∈ seekPointsEvents [P] s.1 s.2
  · simp [h, Nat.add_comm]
  · simp [h]

/-- Behaviour of the restart loop from any entry state that overshoots
(or exactly reaches) the end: writing `delta1 = delta - (E - cur)` and
`m = ⌊delta1 / loopLen⌋`, the end point fires forward once for the initial
leg when `cur < E` plus `m` more times, and the playhead settles at
`anchor + (delta1 - loopLen * m)`, i.e. the anchor plus `delta1 mod loopLen`. -/
theorem restartLoop_spec (E anchor : ℚ) (hL : 0 < E - anchor) :
    ∀ (n : ℕ) (cur delta : ℚ),
      (⌊(delta - (E - cur)) / (E - anchor)⌋).toNat = n →
      E - cur ≤ delta → 0 < delta →
      forwardFireCount E (restartLoop E anchor cur delta).1 =
        ((if cur < E then 1 else 0) +
          (⌊(delta - (E - cur)) / (E - anchor)⌋).toNat) ∧
      (restartLoop E anchor cur delta).2 =
        anchor + ((delta - (E - cur)) -
          (E - anchor) * ⌊(delta - (E - cur)) / (E - anchor)⌋) := by
  intro n
  induction n using Nat.strong_induction_on with
  | _ n ih =>
    intro cur delta hn hle hpos
    have hanc : anchor < E := by linarith
    have hd1 : (0 : ℚ) ≤ delta - (E - cur) := by linarith
    rw [restartLoop]
    rw [if_neg (not_le.mpr hpos), if_neg (not_lt.mpr hle), dif_pos hanc]
    dsimp only
    have hfire1 : ((E, (1 : Int)) ∈ seekPointsEvents [E] cur E) ↔ cur < E := by
      rw [endFire_mem]
      exact ⟨fun h => h.1, fun h => ⟨h, le_refl E⟩⟩
    have hfire2 : ¬ ((E, (1 : Int)) ∈ seekPointsEvents [E] E anchor) := by
      rw [endFire_mem]
      rintro ⟨h1, _⟩
      exact lt_irrefl E h1
    by_cases hcase : delta - (E - cur) < E - anchor
    · -- final (possibly empty) partial leg: the floor term is zero
      have hm0 : ⌊(delta - (E - cur)) / (E - anchor)⌋ = 0 := by
        rw [Int.floor_eq_zero_iff]
        constructor
        · exact div_nonneg hd1 hL.le
        · rw [div_lt_one hL]
          exact hcase
      by_cases hz : delta - (E - cur) ≤ 0
      · have hz' : delta - (E - cur) = 0 := le_antisymm hz hd1
        rw [restartLoop, if_pos hz]
        dsimp only
        constructor
        · rw [forwardFireCount_cons, forwardFireCount_cons,
            forwardFireCount_nil, hm0]
          by_cases hcur : cur < E
          · rw [if_pos (hfire1.mpr hcur), if_neg hfire2, if_pos hcur]
            simp
          · rw [if_neg (fun hmem => hcur (hfire1.mp hmem)), if_neg hfire2,
              if_neg hcur]
            simp
        · rw [hm0, hz']
          simp
      · push_neg at hz
        rw [restartLoop, if_neg (not_le.mpr hz),
          if_pos (by linarith : delta - (E - cur) < E - anchor)]
        dsimp only
        constructor
        · rw [forwardFireCount_cons, forwardFireCount_cons,
            forwardFireCount_cons, forwardFireCount_nil, hm0]
          have hfire3 : ¬ ((E, (1 : Int)) ∈
              seekPointsEvents [E] anchor (anchor + (delta - (E - cur)))) := by
            rw [endFire_mem]
            rintro ⟨_, h2⟩
            linarith
          by_cases hcur : cur < E
          · rw [if_pos (hfire1.mpr hcur), if_neg hfire2, if_neg hfire3,
              if_pos hcur]
            simp
          · rw [if_neg (fun hmem => hcur (hfire1.mp hmem)), if_neg hfire2,
              if_neg hfire3, if_neg hcur]
            simp
        · rw [hm0]
          simp
    · -- at least one more full cycle: recurse
      push_neg at hcase
      have hd1pos : 0 < delta - (E - cur) := lt_of_lt_of_le hL hcase
      have hfloor : ⌊(delta - (E - cur) - (E - anchor)) / (E - anchor)⌋ =
          ⌊(delta - (E - cur)) / (E - anchor)⌋ - 1 := by
        have hx : (delta - (E - cur) - (E - anchor)) / (E - anchor) =
            (delta - (E - cur)) / (E - anchor) - (1 : ℤ) := by
          push_cast
          field_simp
        rw [hx, Int.floor_sub_int]
      have hm1 : (1 : ℤ) ≤ ⌊(delta - (E - cur)) / (E - anchor)⌋ := by
        rw [Int.le_floor]
        push_cast
        rw [le_div_iff₀ hL]
        linarith
      have hmeas : (⌊(delta - (E - cur) - (E - anchor)) /
          (E - anchor)⌋).toNat < n := by
        rw [hfloor]
        omega
      have hle' : E - anchor ≤ delta - (E - cur) := hcase
      have ihres := ih _ hmeas anchor (delta - (E - cur)) rfl
        (by linarith) hd1pos
      constructor
      · rw [forwardFireCount_cons, forwardFireCount_cons, ihres.1, hfloor]
        by_cases hcur : cur < E
        · rw [if_pos (hfire1.mpr hcur), if_neg hfire2, if_pos hcur,
            if_pos hanc]
          omega
        · rw [if_neg (fun hmem => hcur (hfire1.mp hmem)), if_neg hfire2,
            if_neg hcur, if_pos hanc]
          omega
      · rw [ihres.2, hfloor]
        push_cast
        ring

/-- **C5 (amended)**: when a tick's `delta` overshoots `endPosition` from
playhead `cur` with loop length `L = endPosition - anchor > 0`, the engine
fires the loop-end point forward `(if cur < E then 1 else 0) +
⌊(delta - (E - cur)) / L⌋` times — which equals the claimed `⌊delta / L⌋`
exactly when the tick starts at the anchor — and settles at
`anchor + ((delta - (E - cur)) mod L)`, which equals the claimed
`anchor + (delta mod L)` when `cur = anchor`; each cycle seeks to `E` and
then directly back to the anchor.  When `L ≤ 0` the engine instead clamps
with a single seek to `min(cur + delta, E)`. -/
theorem c5_restart_amended (E anchor cur delta : ℚ)
    (hover : E < cur + delta) (hpos : 0 < delta) :
    (0 < E - anchor →
      forwardFireCount E (nextRestart E anchor cur delta).1 =
        ((if cur < E then 1 else 0) +
          (⌊(delta - (E - cur)) / (E - anchor)⌋).toNat) ∧
      (nextRestart E anchor cur delta).2 =
        anchor + ((delta - (E - cur)) -
          (E - anchor) * ⌊(delta - (E - cur)) / (E - anchor)⌋) ∧
      (cur = anchor →
        forwardFireCount E (nextRestart E anchor cur delta).1 =
          (⌊delta / (E - anchor)⌋).toNat ∧
        (nextRestart E anchor cur delta).2 =
          anchor + (delta - (E - anchor) * ⌊delta / (E - anchor)⌋))) ∧
    (E - anchor ≤ 0 →
      nextRestart E anchor cur delta =
        ([(cur, min (cur + delta) E)], min (cur + delta) E)) := by
  constructor
  · intro hL
    have hnr : nextRestart E anchor cur delta =
        restartLoop E anchor cur delta := by
      rw [nextRestart, if_neg (not_le.mpr hover), if_neg (not_le.mpr hL)]
    have hspec := restartLoop_spec E anchor hL
      (⌊(delta - (E - cur)) / (E - anchor)⌋).toNat cur delta rfl
      (by linarith) hpos
    rw [hnr]
    refine ⟨hspec.1, hspec.2, ?_⟩
    intro hanchor
    subst hanchor
    have hfloor : ⌊(delta - (E - cur)) / (E - cur)⌋ =
        ⌊delta / (E - cur)⌋ - 1 := by
      have hx : (delta - (E - cur)) / (E - cur) =
          delta / (E - cur) - (1 : ℤ) := by
        push_cast
        field_simp
      rw [hx, Int.floor_sub_int]
    have hone : (1 : ℤ) ≤ ⌊delta / (E - cur)⌋ := by
      rw [Int.le_floor]
      push_cast
      rw [le_div_iff₀ hL]
      linarith
    have hcur : cur < E := by linarith
    constructor
    · rw [hspec.1, hfloor, if_pos hcur]
      omega
    · rw [hspec.2, hfloor]
      push_cast
      ring
  · intro hL
    rw [nextRestart, if_neg (not_le.mpr hover), if_pos hL]

theorem c5_restart_amended_witness :
    ((0 : ℚ) < 2 - 0 →
      forwardFireCount 2 (nextRestart 2 0 1 3).1 =
        ((if (1 : ℚ) < 2 then 1 else 0) +
          (⌊((3 : ℚ) - (2 - 1)) / (2 - 0)⌋).toNat) ∧
      (nextRestart 2 0 1 3).2 =
        0 + (((3 : ℚ) - (2 - 1)) -
          (2 - 0) * ⌊((3 : ℚ) - (2 - 1)) / (2 - 0)⌋) ∧
      ((1 : ℚ) = 0 →
        forwardFireCount 2 (nextRestart 2 0 1 3).1 =
          (⌊(3 : ℚ) / (2 - 0)⌋).toNat ∧
        (nextRestart 2 0 1 3).2 =
          0 + ((3 : ℚ) - (2 - 0) * ⌊(3 : ℚ) / (2 - 0)⌋))) ∧
    ((2 : ℚ) - 0 ≤ 0 →
      nextRestart 2 0 1 3 =
        ([(1, min ((1 : ℚ) + 3) 2)], min ((1 : ℚ) + 3) 2)) :=
  c5_restart_amended 2 0 1 3 (by norm_num) (by norm_num)

/-- **C5 (counterexample)**: with `E = 2`, anchor `0` (loop length `L = 2`),
playhead `1` and tick `delta = 3` (an overshoot), the code fires the
loop-end point forward twice and settles at the anchor `0`, while the claim
predicts `⌊delta/L⌋ = 1` firing and a settle position of
`anchor + (delta mod L) = 0 + 1 = 1`. -/
theorem c5_restart_counterexample :
    nextRestart 2 0 1 3 = ([(1, 2), (2, 0), (0, 2), (2, 0)], 0) ∧
    forwardFireCount 2 (nextRestart 2 0 1 3).1 = 2 ∧
    (nextRestart 2 0 1 3).2 = 0 ∧
    ⌊(3 : ℚ) / 2⌋ = 1 ∧ (2 : ℕ) ≠ 1 ∧ (0 : ℚ) ≠ 0 + ((3 : ℚ) - 2 * 1) := by
  have h1 : nextRestart 2 0 1 3 = ([(1, 2), (2, 0), (0, 2), (2, 0)], 0) := by
    rw [nextRestart]
    norm_num
    rw [restartLoop]
    norm_num
    rw [restartLoop]
    norm_num
    rw [restartLoop]
    norm_num
  refine ⟨h1, ?_, ?_, ?_, ?_, ?_⟩
  · rw [h1]
    decide
  · rw [h1]
  · rw [Int.floor_eq_iff]
    constructor <;> norm_num
  · norm_num
  · norm_num

/-! ## C4 — wrap end action -/

theorem ratTrunc_of_Ico {q : ℚ} (n : ℤ) (h1 : (n : ℚ) ≤ q)
    (h2 : q < n + 1) (hn : 0 ≤ n) : ratTrunc q = n := by
  have hq : 0 ≤ q := le_trans (by exact_mod_cast hn) h1
  rw [ratTrunc, if_pos hq]
  exact Int.floor_eq_iff.mpr ⟨h1, h2⟩

theorem jsMod_of_Ico {a L : ℚ} (n : ℤ) (hn : 0 ≤ n) (hL : 0 < L)
    (h1 : (n : ℚ) * L ≤ a) (h2 : a < (n + 1) * L) :
    jsMod a L = a - n * L := by
  have ht : ratTrunc (a / L) = n := by
    apply ratTrunc_of_Ico n _ _ hn
    · rw [le_div_iff₀ hL]
      linarith
    · rw [div_lt_iff₀ hL]
      push_cast
      linarith
  rw [jsMod, ht]
  ring

theorem getWrapped_of_Ico {a L : ℚ} (hL : 0 < L) (h0 : 0 ≤ a) (hlt : a < L) :
    getWrappedPosition 0 L a = a := by
  have h1 : jsMod (a - 0) L = a := by
    rw [sub_zero]
    have := jsMod_of_Ico (a := a) (L := L) 0 (le_refl 0) hL
      (by push_cast; linarith) (by push_cast; linarith)
    simpa using this
  have h2 : jsMod (a + L) L = a := by
    have := jsMod_of_Ico (a := a + L) (L := L) 1 (by norm_num) hL
      (by push_cast; linarith) (by push_cast; linarith)
    rw [this]
    push_cast
    ring
  rw [getWrappedPosition, h1, h2]
  ring

theorem getWrapped_add {x L : ℚ} (hL : 0 < L) (h0 : 0 ≤ x) (hlt : x < L) :
    getWrappedPosition 0 L (L + x) = x := by
  have h1 : jsMod (L + x - 0) L = x := by
    rw [sub_zero]
    have := jsMod_of_Ico (a := L + x) (L := L) 1 (by norm_num) hL
      (by push_cast; linarith) (by push_cast; linarith)
    rw [this]
    push_cast
    ring
  have h2 : jsMod (x + L) L = x := by
    have := jsMod_of_Ico (a := x + L) (L := L) 1 (by norm_num) hL
      (by push_cast; linarith) (by push_cast; linarith)
    rw [this]
    push_cast
    ring
  rw [getWrappedPosition, h1, h2]
  ring

theorem pointEvents_append (l1 l2 : List Ev) :
    pointEvents (l1 ++ l2) = pointEvents l1 ++ pointEvents l2 := by
  induction l1 with
  | nil => rfl
  | cons e rest ih =>
    cases e with
    | rangeEmit s d pr => simpa [pointEvents] using ih
    | pointEmit p d c => simpa [pointEvents] using ih

theorem pointEvents_eq_nil (l : List Ev)
    (h : ∀ e ∈ l, ∃ s d pr, e = Ev.rangeEmit s d pr) : pointEvents l = [] := by
  induction l with
  | nil => rfl
  | cons e rest ih =>
    rcases h e (List.mem_cons_self _ _) with ⟨s, d, pr, he⟩
    subst he
    exact ih (fun e he => h e (List.mem_cons_of_mem _ he))

theorem seekRangesTrace_shape (ranges : List (ℚ × ℚ)) (a b : ℚ) :
    ∀ e ∈ seekRangesTrace ranges a b, ∃ s d pr, e = Ev.rangeEmit s d pr := by
  intro e he
  rw [seekRangesTrace] at he
  split at he
  · simp at he
  · rcases List.mem_filterMap.mp he with ⟨r, _, hr⟩
    split at hr
    · exact ⟨r.1, r.2, _, (Option.some.inj hr).symm⟩
    · simp at hr

theorem pointEvents_seekRangesTrace (ranges : List (ℚ × ℚ)) (a b : ℚ) :
    pointEvents (seekRangesTrace ranges a b) = [] :=
  pointEvents_eq_nil _ (seekRangesTrace_shape ranges a b)

theorem pointEvents_phase (ranges : List (ℚ × ℚ)) (d : Int) :
    ∀ (lst : List ℚ) (cur : ℚ),
      pointEvents (pointPhase ranges d cur lst).1 =
        lst.map (fun p => (p, d, p)) := by
  intro lst
  induction lst with
  | nil => intro cur; rfl
  | cons p rest ih =>
    intro cur
    show pointEvents (seekRangesTrace ranges cur p ++
      Ev.pointEmit p d p :: (pointPhase ranges d p rest).1) = _
    rw [pointEvents_append, pointEvents_seekRangesTrace]
    show (p, d, p) :: pointEvents (pointPhase ranges d p rest).1 = _
    rw [ih p]
    rfl

theorem pointEvents_seekPointsTraceFn (ranges : List (ℚ × ℚ))
    (pts : List ℚ) (a b : ℚ) :
    pointEvents (seekPointsTraceFn ranges pts a b).1 =
      (pointsBetween pts a b).map
        (fun p => (p, (if b > a then (1 : Int) else -1), p)) :=
  pointEvents_phase ranges _ (pointsBetween pts a b) a

/-- One-leg run of the `seekWrapped` loop (forward, anchor 0): the whole
remaining travel fits before the timeline end. -/
theorem wrapLoop_one_leg (ranges : List (ℚ × ℚ)) (pts : List ℚ)
    (E vFrom rem c0 : ℚ) (hrem : 0 < rem) (hle : rem ≤ E - vFrom) :
    wrapLoop ranges pts 0 E 1 vFrom rem c0 =
      ((seekPointsTraceFn ranges pts vFrom (vFrom + rem)).1,
        (seekPointsTraceFn ranges pts vFrom (vFrom + rem)).2) := by
  rw [wrapLoop, if_neg (not_le.mpr hrem)]
  have hleg : wrapLegTo 0 E 1 vFrom rem = vFrom + rem := by
    rw [wrapLegTo, if_pos (by norm_num : (1 : Int) > 0), if_pos hle]
  rw [hleg]
  dsimp only
  have habs : |vFrom + rem - vFrom| = rem := by
    rw [show vFrom + rem - vFrom = rem by ring]
    exact abs_of_pos hrem
  rw [habs]
  rw [dif_neg]
  rintro ⟨hcontra, _⟩
  simp at hcontra

/-- Two-leg run of the `seekWrapped` loop (forward, anchor 0): one leg to
the end, a wrap to 0, and a final partial leg. -/
theorem wrapLoop_two_legs (ranges : List (ℚ × ℚ)) (pts : List ℚ)
    (E vFrom rem c0 : ℚ) (hgt : E - vFrom < rem) (hvle : vFrom ≤ E)
    (h2pos : 0 < rem - (E - vFrom)) (hrem2 : rem - (E - vFrom) ≤ E)
    (hE : 0 < E) :
    wrapLoop ranges pts 0 E 1 vFrom rem c0 =
      ((seekPointsTraceFn ranges pts vFrom E).1 ++
          (seekPointsTraceFn ranges pts 0 (rem - (E - vFrom))).1,
        (seekPointsTraceFn ranges pts 0 (rem - (E - vFrom))).2) := by
  have hrem : 0 < rem := by linarith
  rw [wrapLoop, if_neg (not_le.mpr hrem)]
  have hleg : wrapLegTo 0 E 1 vFrom rem = E := by
    rw [wrapLegTo, if_pos (by norm_num : (1 : Int) > 0),
      if_neg (not_le.mpr hgt)]
  rw [hleg]
  dsimp only
  have habs : |E - vFrom| = E - vFrom := abs_of_nonneg (by linarith)
  rw [habs]
  rw [dif_pos ⟨h2pos, by linarith⟩]
  have hanchor : wrapAnchor 0 E 1 = 0 := by
    rw [wrapAnchor, if_pos (by norm_num : (1 : Int) > 0)]
  rw [hanchor]
  have hinner := wrapLoop_one_leg ranges pts E 0 (rem - (E - vFrom))
    (seekPointsTraceFn ranges pts vFrom E).2 h2pos (by simpa using hrem2)
  rw [hinner, zero_add]

/-- **C4 (amended)**: on a Timeline with end action `wrap` (anchor 0) and
end position `E > 0`, an instantaneous seek from `cur ∈ [0, E]` to `E + x`
(`0 ≤ x < E`) fires exactly the points in `(cur, E]` followed by the points
in `(0, x]`, all with direction `+1` and, for each, `currentTime` equal to
that point's own wrapped position while its handlers run; afterwards
`currentTime` reports the raw value `E + x`.  When `cur = E` — i.e. the seek
starts exactly at the wrap boundary — the fired points are exactly those of
a plain seek from the anchor 0 to `x`.  (Seeking to `E + x` from an
arbitrary interior position additionally fires the whole-cycle points
`(cur, E]`, so it does not in general fire "the same points as a seek to
`x`".) -/
theorem c4_wrap_amended (ranges : List (ℚ × ℚ)) (pts : List ℚ)
    (E cur x : ℚ) (hE : 0 < E) (hx0 : 0 ≤ x) (hxE : x < E)
    (hc0 : 0 ≤ cur) (hcE : cur ≤ E) (hne : ¬ (cur = E ∧ x = 0)) :
    pointEvents (seekWrappedTrace ranges pts 0 E cur (E + x)).1 =
      ((pts.filter (fun p => decide (cur < p ∧ p ≤ E))).map
          (fun p => (p, (1 : Int), p))) ++
        ((pts.filter (fun p => decide (0 < p ∧ p ≤ x))).map
          (fun p => (p, (1 : Int), p))) ∧
    (seekWrappedTrace ranges pts 0 E cur (E + x)).2 = E + x ∧
    (∀ e ∈ pointEvents (seekWrappedTrace ranges pts 0 E cur (E + x)).1,
      e.2.2 = e.1) ∧
    (cur = E →
      pointEvents (seekWrappedTrace ranges pts 0 E cur (E + x)).1 =
        (seekPointsEvents pts 0 x).map (fun q => (q.1, q.2, q.1))) := by
  have hdir : ((E + x - cur ≥ 0) = True) := by
    simp only [eq_iff_iff, iff_true]
    linarith
  have habs0 : |E + x - cur| = E + x - cur := abs_of_nonneg (by linarith)
  have htrace : pointEvents (seekWrappedTrace ranges pts 0 E cur (E + x)).1 =
      ((pts.filter (fun p => decide (cur < p ∧ p ≤ E))).map
          (fun p => (p, (1 : Int), p))) ++
        ((pts.filter (fun p => decide (0 < p ∧ p ≤ x))).map
          (fun p => (p, (1 : Int), p))) := by
    rw [seekWrappedTrace]
    simp only [hdir, if_true, habs0, sub_zero]
    rcases lt_or_eq_of_le hcE with hclt | hceq
    · have hvf : getWrappedPosition 0 E cur = cur :=
        getWrapped_of_Ico hE hc0 hclt
      rw [hvf]
      rcases lt_or_eq_of_le hx0 with hxpos | hxz
      · -- two legs: (cur, E] then (0, x]
        have hloop := wrapLoop_two_legs ranges pts E cur (E + x - cur) cur
          (by linarith)  (by linarith)
          (by rw [show E + x - cur - (E - cur) = x by ring]; linarith)
          (by rw [show E + x - cur - (E - cur) = x by ring]; linarith) hE
        rw [hloop]
        rw [pointEvents_append, pointEvents_append,
          pointEvents_seekRangesTrace, List.append_nil]
        rw [pointEvents_seekPointsTraceFn, pointEvents_seekPointsTraceFn]
        rw [show E + x - cur - (E - cur) = x by ring]
        rw [pointsBetween, if_pos (by linarith : E > cur)]
        rw [pointsBetween, if_pos (by linarith : x > 0)]
        rw [if_pos (by linarith : E > cur), if_pos (by linarith : x > 0)]
      · -- single leg: (cur, E], and x = 0 contributes nothing
        have hloop := wrapLoop_one_leg ranges pts E cur (E + x - cur) cur
          (by linarith) (by rw [← hxz]; linarith)
        rw [hloop]
        rw [pointEvents_append, pointEvents_seekRangesTrace, List.append_nil]
        rw [pointEvents_seekPointsTraceFn]
        rw [show cur + (E + x - cur) = E by rw [← hxz]; ring]
        rw [pointsBetween, if_pos (by linarith : E > cur)]
        rw [if_pos (by linarith : E > cur)]
        have hnil : pts.filter (fun p => decide (0 < p ∧ p ≤ x)) = [] := by
          rw [List.filter_eq_nil]
          intro p _
          simp only [decide_eq_true_eq, not_and]
          intro hp
          rw [← hxz] at *
          linarith
        rw [hnil]
        simp
    · -- cur = E: the seek starts at the wrap boundary
      subst hceq
      have hxpos : 0 < x := by
        rcases lt_or_eq_of_le hx0 with h | h
        · exact h
        · exact absurd ⟨rfl, h.symm⟩ hne
      have hvf : getWrappedPosition 0 cur cur = 0 := by
        have := getWrapped_add (x := 0) (L := cur) (by linarith) (le_refl 0)
          (by linarith)
        rw [add_zero] at this
        exact this
      rw [hvf]
      have hloop := wrapLoop_one_leg ranges pts cur 0 (cur + x - cur) cur
        (by rw [show cur + x - cur = x by ring]; linarith)
        (by rw [show cur + x - cur = x by ring]; linarith)
      rw [hloop]
      rw [pointEvents_append, pointEvents_seekRangesTrace, List.append_nil]
      rw [pointEvents_seekPointsTraceFn]
      rw [show (0 : ℚ) + (cur + x - cur) = x by ring]
      rw [pointsBetween, if_pos (by linarith : x > 0)]
      rw [if_pos (by linarith : x > 0)]
      have hnil : pts.filter (fun p => decide (cur < p ∧ p ≤ cur)) = [] := by
        rw [List.filter_eq_nil]
        intro p _
        simp only [decide_eq_true_eq, not_and]
        intro hp
        linarith
      rw [hnil]
      simp
  refine ⟨htrace, ?_, ?_, ?_⟩
  · rw [seekWrappedTrace]
  · intro e he
    rw [htrace] at he
    rcases List.mem_append.mp he with hm | hm <;>
    · rcases List.mem_map.mp hm with ⟨p, _, hpe⟩
      rw [← hpe]
  · intro hceq
    subst hceq
    have hxpos : 0 < x := by
      rcases lt_or_eq_of_le hx0 with h | h
      · exact h
      · exact absurd ⟨rfl, h.symm⟩ hne
    rw [htrace]
    have hnil : pts.filter (fun p => decide (cur < p ∧ p ≤ cur)) = [] := by
      rw [List.filter_eq_nil]
      intro p _
      simp only [decide_eq_true_eq, not_and]
      intro hp
      linarith
    rw [hnil]
    rw [seekPointsEvents, pointsBetween, if_pos (by linarith : x > 0),
      if_pos (by linarith : x > 0), List.map_map]
    simp

theorem c4_wrap_amended_witness :
    pointEvents (seekWrappedTrace [] [2] 0 2 0 (2 + 1)).1 =
      (([2].filter (fun p => decide ((0 : ℚ) < p ∧ p ≤ 2))).map
          (fun p => (p, (1 : Int), p))) ++
        (([2].filter (fun p => decide ((0 : ℚ) < p ∧ p ≤ 1))).map
          (fun p => (p, (1 : Int), p))) ∧
    (seekWrappedTrace [] [2] 0 2 0 (2 + 1)).2 = 2 + 1 ∧
    (∀ e ∈ pointEvents (seekWrappedTrace [] [2] 0 2 0 (2 + 1)).1,
      e.2.2 = e.1) ∧
    ((0 : ℚ) = 2 →
      pointEvents (seekWrappedTrace [] [2] 0 2 0 (2 + 1)).1 =
        (seekPointsEvents [2] 0 1).map (fun q => (q.1, q.2, q.1))) :=
  c4_wrap_amended [] [2] 2 0 1 (by norm_num) (by norm_num) (by norm_num)
    (by norm_num) (by norm_num) (by norm_num)

/-- **C4 (counterexample)**: with end `E = 2`, a registered point at `2`,
and playhead `0`, the wrapped seek to `E + x = 3` (`x = 1`) fires the point
at `2`, while a seek to `x = 1` fires nothing — so a seek to `E + x` does
not in general trigger "the same points as a seek to `x`". -/
theorem c4_wrap_counterexample :
    pointEvents (seekWrappedTrace [] [2] 0 2 0 3).1 = [(2, 1, 2)] ∧
    seekPointsEvents [2] 0 1 = [] ∧
    ([((2 : ℚ), (1 : Int), (2 : ℚ))] : List (ℚ × Int × ℚ)) ≠
      ([] : List (ℚ × Int × ℚ)).map (fun q => q) := by
  refine ⟨?_, by decide, by simp⟩
  rw [seekWrappedTrace]
  rw [wrapLoop]
  norm_num [wrapLegTo, wrapAnchor, getWrappedPosition, jsMod, ratTrunc]
  rw [wrapLoop]
  norm_num [wrapLegTo, wrapAnchor, seekPointsTraceFn, pointsBetween,
    pointPhase, seekRangesTrace, pointEvents]

/-! ## C2 — ranges settle before points -/

theorem clamp_eq_one {s d x : ℚ} (hd : 0 < d) (hx : s + d ≤ x) :
    clamp ((x - s) / d) 0 1 = 1 := by
  have h1 : (1 : ℚ) ≤ (x - s) / d := by
    rw [le_div_iff₀ hd]
    linarith
  rw [clamp, max_eq_left (by linarith), min_eq_right h1]

theorem clamp_eq_zero {s d x : ℚ} (hd : 0 < d) (hx : x ≤ s) :
    clamp ((x - s) / d) 0 1 = 0 := by
  have h1 : (x - s) / d ≤ 0 := div_nonpos_of_nonpos_of_nonneg (by linarith) hd.le
  rw [clamp, max_eq_right h1, min_eq_left (by norm_num)]

theorem seekRangesTrace_mem {ranges : List (ℚ × ℚ)} {a b : ℚ}
    (hne : a ≠ b) {r : ℚ × ℚ} (hr : r ∈ ranges)
    (h1 : min a b ≤ r.1 + r.2) (h2 : r.1 ≤ max a b) :
    Ev.rangeEmit r.1 r.2 (clamp ((b - r.1) / r.2) 0 1) ∈
      seekRangesTrace ranges a b := by
  rw [seekRangesTrace, if_neg hne]
  exact List.mem_filterMap.mpr ⟨r, hr, by rw [if_pos ⟨h1, h2⟩]⟩

theorem get?_some_lt_length {α : Type} {l : List α} {n : ℕ} {a : α}
    (h : l.get? n = some a) : n < l.length := by
  by_contra hc
  push_neg at hc
  rw [List.get?_eq_none.mpr hc] at h
  exact Option.noConfusion h

/-- A member of the left part of an append is reachable at an index below
the left part's length. -/
theorem mem_get?_append_left {α : Type} {l1 l2 : List α} {a : α}
    (h : a ∈ l1) : ∃ j, j < l1.length ∧ (l1 ++ l2).get? j = some a := by
  rcases List.mem_iff_get?.mp h with ⟨j, hj⟩
  have hlt : j < l1.length := get?_some_lt_length hj
  exact ⟨j, hlt, by rw [List.get?_append hlt]; exact hj⟩

/-- Every point event produced by the `seekPoints` loop carries the given
direction and a `curAt` equal to its own position, and its position was in
the filtered list. -/
theorem phase_pointEmit_shape (ranges : List (ℚ × ℚ)) (d₀ : Int) :
    ∀ (lst : List ℚ) (cur : ℚ) (i : ℕ) (p : ℚ) (dd : Int) (c : ℚ),
      (pointPhase ranges d₀ cur lst).1.get? i = some (Ev.pointEmit p dd c) →
      dd = d₀ ∧ c = p ∧ p ∈ lst := by
  intro lst
  induction lst with
  | nil =>
    intro cur i p dd c hi
    exact Option.noConfusion hi
  | cons p₀ rest ih =>
    intro cur i p dd c hi
    have hshape : (pointPhase ranges d₀ cur (p₀ :: rest)).1 =
        seekRangesTrace ranges cur p₀ ++
          Ev.pointEmit p₀ d₀ p₀ :: (pointPhase ranges d₀ p₀ rest).1 := rfl
    rw [hshape] at hi
    set R := seekRangesTrace ranges cur p₀ with hR
    rcases Nat.lt_trichotomy i R.length with hlt | heq | hgt
    · rw [List.get?_append hlt] at hi
      rcases seekRangesTrace_shape ranges cur p₀ _ (List.get?_mem hi) with
        ⟨s, d, pr, habs⟩
      exact Ev.noConfusion habs
    · subst heq
      rw [List.get?_append_right (le_refl _), Nat.sub_self] at hi
      have := Option.some.inj hi
      rcases Ev.pointEmit.inj this with ⟨h1, h2, h3⟩
      exact ⟨h2.symm, h3.symm.trans h1,
        by rw [← h1]; exact List.mem_cons_self _ _⟩
    · rw [List.get?_append_right (le_of_lt hgt)] at hi
      have hsub : i - R.length = (i - R.length - 1) + 1 := by omega
      rw [hsub] at hi
      have hres := ih p₀ (i - R.length - 1) p dd c hi
      exact ⟨hres.1, hres.2.1, List.mem_cons_of_mem _ hres.2.2⟩

/-- Forward dispatch invariant: while `seekPoints` walks an ascending list
of points all beyond the playhead, every range whose interval reaches back
into the already-traversed part `[f, p]` has, by the time the point at `p`
fires, either just been settled at `p` (it overlaps the current leg) or
received its final forward emission `1` earlier (modelled by the prefix
predicate `P`, maintained across legs). -/
theorem phase_fwd (ranges : List (ℚ × ℚ)) (f : ℚ) (d₀ : Int)
    (hd : ∀ r ∈ ranges, 0 < r.2) :
    ∀ (lst : List ℚ) (cur : ℚ) (P : Ev → Prop),
      f ≤ cur →
      (∀ q ∈ lst, cur < q) →
      lst.Sorted (· < ·) →
      (∀ r ∈ ranges, r.1 + r.2 < cur → f ≤ r.1 + r.2 →
        P (Ev.rangeEmit r.1 r.2 1)) →
      ∀ (i : ℕ) (p : ℚ) (dd : Int) (c : ℚ),
        (pointPhase ranges d₀ cur lst).1.get? i =
          some (Ev.pointEmit p dd c) →
        ∀ r ∈ ranges, f ≤ r.1 + r.2 → r.1 ≤ p →
          (∃ j, j < i ∧ (pointPhase ranges d₀ cur lst).1.get? j =
            some (Ev.rangeEmit r.1 r.2 (clamp ((p - r.1) / r.2) 0 1))) ∨
          P (Ev.rangeEmit r.1 r.2 (clamp ((p - r.1) / r.2) 0 1)) := by
  intro lst
  induction lst with
  | nil =>
    intro cur P _ _ _ _ i p dd c hi
    exact absurd hi (by simp [pointPhase])
  | cons p₀ rest ih =>
    intro cur P hfc hall hsort hprov i p dd c hi r hr hfr hrp
    have hcurp : cur < p₀ := hall p₀ (List.mem_cons_self _ _)
    have hshape : (pointPhase ranges d₀ cur (p₀ :: rest)).1 =
        seekRangesTrace ranges cur p₀ ++
          Ev.pointEmit p₀ d₀ p₀ :: (pointPhase ranges d₀ p₀ rest).1 := rfl
    rw [hshape] at hi ⊢
    set R := seekRangesTrace ranges cur p₀ with hRdef
    rcases Nat.lt_trichotomy i R.length with hlt | heq | hgt
    · rw [List.get?_append hlt] at hi
      rcases seekRangesTrace_shape ranges cur p₀ _ (List.get?_mem hi) with
        ⟨s, d, pr, habs⟩
      exact Ev.noConfusion habs
    · subst heq
      rw [List.get?_append_right (le_refl _), Nat.sub_self] at hi
      rcases Ev.pointEmit.inj (Option.some.inj hi) with ⟨h1, _, _⟩
      cases h1
      by_cases hfall : r.1 + r.2 < cur
      · right
        rw [clamp_eq_one (hd r hr) (by linarith)]
        exact hprov r hr hfall hfr
      · left
        push_neg at hfall
        have hmem : Ev.rangeEmit r.1 r.2 (clamp ((p₀ - r.1) / r.2) 0 1) ∈
            R := seekRangesTrace_mem (ne_of_lt hcurp) hr
          (le_trans (min_le_left _ _) hfall)
          (le_trans hrp (le_max_right _ _))
        exact mem_get?_append_left hmem
    · rw [List.get?_append_right (le_of_lt hgt)] at hi
      have hsub : i - R.length = (i - R.length - 1) + 1 := by omega
      rw [hsub] at hi
      have hprov2 : ∀ r' ∈ ranges, r'.1 + r'.2 < p₀ → f ≤ r'.1 + r'.2 →
          (fun e => P e ∨ e ∈ R) (Ev.rangeEmit r'.1 r'.2 1) := by
        intro r' hr' hfall' hfr'
        by_cases hfall2 : r'.1 + r'.2 < cur
        · exact Or.inl (hprov r' hr' hfall2 hfr')
        · push_neg at hfall2
          right
          have hr1p : r'.1 ≤ p₀ := by
            have := hd r' hr'
            linarith
          have hmem : Ev.rangeEmit r'.1 r'.2
              (clamp ((p₀ - r'.1) / r'.2) 0 1) ∈ R :=
            seekRangesTrace_mem (ne_of_lt hcurp) hr'
              (le_trans (min_le_left _ _) hfall2)
              (le_trans hr1p (le_max_right _ _))
          rwa [clamp_eq_one (hd r' hr') (le_of_lt hfall')] at hmem
      have hres := ih p₀ (fun e => P e ∨ e ∈ R) (by linarith)
        (fun q hq => (List.pairwise_cons.mp hsort).1 q hq)
        (List.pairwise_cons.mp hsort).2 hprov2
        (i - R.length - 1) p dd c hi r hr hfr hrp
      rcases hres with ⟨j', hj', hjget⟩ | hP
      · left
        refine ⟨R.length + 1 + j', by omega, ?_⟩
        rw [List.get?_append_right (by omega : R.length ≤ R.length + 1 + j'),
          show R.length + 1 + j' - R.length = j' + 1 by omega]
        exact hjget
      · rcases hP with hP | hmemR
        · exact Or.inr hP
        · left
          rcases @mem_get?_append_left _ _
            (Ev.pointEmit p₀ d₀ p₀ :: (pointPhase ranges d₀ p₀ rest).1)
            _ hmemR with ⟨j, hj, hjget⟩
          exact ⟨j, by omega, hjget⟩

/-- Backward dispatch invariant, mirror of `phase_fwd`: points descend from
the playhead, fallen-behind ranges (start above the playhead) have already
emitted their final backward value `0`, and the exception is the point that
fires exactly at the seek's starting position, which is preceded by no
traversal at all. -/
theorem phase_bwd (ranges : List (ℚ × ℚ)) (f : ℚ) (d₀ : Int)
    (hd : ∀ r ∈ ranges, 0 < r.2) :
    ∀ (lst : List ℚ) (cur : ℚ) (P : Ev → Prop),
      cur ≤ f →
      (∀ q ∈ lst, q ≤ cur) →
      (∀ q ∈ lst, q = cur → cur = f) →
      lst.Sorted (· > ·) →
      (∀ r ∈ ranges, cur < r.1 → r.1 ≤ f →
        P (Ev.rangeEmit r.1 r.2 0)) →
      ∀ (i : ℕ) (p : ℚ) (dd : Int) (c : ℚ),
        (pointPhase ranges d₀ cur lst).1.get? i =
          some (Ev.pointEmit p dd c) →
        p ≠ f →
        ∀ r ∈ ranges, p ≤ r.1 + r.2 → r.1 ≤ f →
          (∃ j, j < i ∧ (pointPhase ranges d₀ cur lst).1.get? j =
            some (Ev.rangeEmit r.1 r.2 (clamp ((p - r.1) / r.2) 0 1))) ∨
          P (Ev.rangeEmit r.1 r.2 (clamp ((p - r.1) / r.2) 0 1)) := by
  intro lst
  induction lst with
  | nil =>
    intro cur P _ _ _ _ _ i p dd c hi
    exact absurd hi (by simp [pointPhase])
  | cons p₀ rest ih =>
    intro cur P hcf hall hheadok hsort hprov i p dd c hi hpf r hr hrd hrf
    have hp0cur : p₀ ≤ cur := hall p₀ (List.mem_cons_self _ _)
    have hshape : (pointPhase ranges d₀ cur (p₀ :: rest)).1 =
        seekRangesTrace ranges cur p₀ ++
          Ev.pointEmit p₀ d₀ p₀ :: (pointPhase ranges d₀ p₀ rest).1 := rfl
    rw [hshape] at hi ⊢
    set R := seekRangesTrace ranges cur p₀ with hRdef
    rcases Nat.lt_trichotomy i R.length with hlt | heq | hgt
    · rw [List.get?_append hlt] at hi
      rcases seekRangesTrace_shape ranges cur p₀ _ (List.get?_mem hi) with
        ⟨s, d, pr, habs⟩
      exact Ev.noConfusion habs
    · subst heq
      rw [List.get?_append_right (le_refl _), Nat.sub_self] at hi
      rcases Ev.pointEmit.inj (Option.some.inj hi) with ⟨h1, _, _⟩
      cases h1
      have hp0lt : p₀ < cur := by
        rcases lt_or_eq_of_le hp0cur with h | h
        · exact h
        · exact absurd (h.trans (hheadok p₀ (List.mem_cons_self _ _) h)) hpf
      by_cases hout : cur < r.1
      · right
        rw [clamp_eq_zero (hd r hr) (by linarith)]
        exact hprov r hr hout hrf
      · left
        push_neg at hout
        have hmem : Ev.rangeEmit r.1 r.2 (clamp ((p₀ - r.1) / r.2) 0 1) ∈
            R := seekRangesTrace_mem (ne_of_gt hp0lt) hr
          (le_trans (min_le_right _ _) hrd)
          (le_trans hout (le_max_left _ _))
        exact mem_get?_append_left hmem
    · rw [List.get?_append_right (le_of_lt hgt)] at hi
      have hsub : i - R.length = (i - R.length - 1) + 1 := by omega
      rw [hsub] at hi
      have hprov2 : ∀ r' ∈ ranges, p₀ < r'.1 → r'.1 ≤ f →
          (fun e => P e ∨ e ∈ R) (Ev.rangeEmit r'.1 r'.2 0) := by
        intro r' hr' hgt' hle'
        by_cases hout2 : cur < r'.1
        · exact Or.inl (hprov r' hr' hout2 hle')
        · push_neg at hout2
          right
          have hp0ltcur : p₀ < cur := lt_of_lt_of_le hgt' hout2
          have hmem : Ev.rangeEmit r'.1 r'.2
              (clamp ((p₀ - r'.1) / r'.2) 0 1) ∈ R :=
            seekRangesTrace_mem (ne_of_gt hp0ltcur) hr'
              (le_trans (min_le_right _ _)
                (by have := hd r' hr'; linarith))
              (le_trans hout2 (le_max_left _ _))
          rwa [clamp_eq_zero (hd r' hr') (le_of_lt hgt')] at hmem
      have hres := ih p₀ (fun e => P e ∨ e ∈ R)
        (le_trans hp0cur hcf)
        (fun q hq => le_of_lt ((List.pairwise_cons.mp hsort).1 q hq))
        (fun q hq hqe =>
          absurd hqe (ne_of_lt ((List.pairwise_cons.mp hsort).1 q hq)))
        (List.pairwise_cons.mp hsort).2 hprov2
        (i - R.length - 1) p dd c hi hpf r hr hrd hrf
      rcases hres with ⟨j', hj', hjget⟩ | hP
      · left
        refine ⟨R.length + 1 + j', by omega, ?_⟩
        rw [List.get?_append_right (by omega : R.length ≤ R.length + 1 + j'),
          show R.length + 1 + j' - R.length = j' + 1 by omega]
        exact hjget
      · rcases hP with hP | hmemR
        · exact Or.inr hP
        · left
          rcases @mem_get?_append_left _ _
            (Ev.pointEmit p₀ d₀ p₀ :: (pointPhase ranges d₀ p₀ rest).1)
            _ hmemR with ⟨j, hj, hjget⟩
          exact ⟨j, by omega, hjget⟩

/-- **C2 (amended)**: within one instantaneous seek (registry sorted in the
travel direction, all registered ranges of positive duration), whenever a
point fires at a position `p` different from the seek's starting position,
every registered range whose interval `[start, start + duration]` intersects
the interval traversed so far (`[min f p, max f p]`) has received a progress
emission with value `clamp((p - start)/duration, 0, 1)` — the progress
evaluated at `p` — at an earlier index of the dispatch trace; moreover
`currentTime` equals `p` while that point's handlers execute.  (A backward
seek fires a point sitting exactly at the starting position immediately,
with no prior range settlement — hence the `p ≠ from` proviso.) -/
theorem c2_ranges_settle_amended (ranges : List (ℚ × ℚ)) (pts : List ℚ)
    (f t : ℚ) (hd : ∀ r ∈ ranges, 0 < r.2)
    (hfwd : f < t → pts.Sorted (· < ·))
    (hbwd : t < f → pts.Sorted (· > ·))
    (i : ℕ) (p : ℚ) (dd : Int) (c : ℚ)
    (hi : (seekDirectTrace ranges pts f t).get? i =
      some (Ev.pointEmit p dd c))
    (hpf : p ≠ f) :
    c = p ∧
    ∀ r ∈ ranges, min f p ≤ r.1 + r.2 → r.1 ≤ max f p →
      ∃ j, j < i ∧ (seekDirectTrace ranges pts f t).get? j =
        some (Ev.rangeEmit r.1 r.2 (clamp ((p - r.1) / r.2) 0 1)) := by
  by_cases hft : t = f
  · rw [seekDirectTrace, if_pos hft] at hi
    exact absurd hi (by simp)
  · have htrace : seekDirectTrace ranges pts f t =
        (seekPointsTraceFn ranges pts f t).1 ++
          seekRangesTrace ranges (seekPointsTraceFn ranges pts f t).2 t := by
      rw [seekDirectTrace, if_neg hft]
    rw [htrace] at hi ⊢
    have hilt : i < (seekPointsTraceFn ranges pts f t).1.length := by
      by_contra hc
      push_neg at hc
      rw [List.get?_append_right hc] at hi
      rcases seekRangesTrace_shape ranges _ t _ (List.get?_mem hi) with
        ⟨s, d, pr, habs⟩
      exact Ev.noConfusion habs
    rw [List.get?_append hilt] at hi
    have hiphase : (pointPhase ranges (if t > f then 1 else -1) f
        (pointsBetween pts f t)).1.get? i = some (Ev.pointEmit p dd c) := hi
    obtain ⟨hdd, hcp, hpmem⟩ := phase_pointEmit_shape ranges _
      (pointsBetween pts f t) f i p dd c hiphase
    refine ⟨hcp, ?_⟩
    intro r hr h1 h2
    rcases Ne.lt_or_lt hft with htf | hft2
    · -- backward seek: t < f
      have hsorted := hbwd htf
      have hngt : ¬ (t > f) := not_lt.mpr (le_of_lt htf)
      have hbounds : p ≤ f ∧ t < p := by
        have hm := hpmem
        rw [pointsBetween, if_neg hngt] at hm
        exact of_decide_eq_true (List.mem_filter.mp hm).2
      have hplt : p < f := lt_of_le_of_ne hbounds.1 hpf
      rw [min_eq_right (le_of_lt hplt)] at h1
      rw [max_eq_left (le_of_lt hplt)] at h2
      have hres := phase_bwd ranges f _ hd (pointsBetween pts f t) f
        (fun _ => False) (le_refl f)
        (fun q hq => by
          rw [pointsBetween, if_neg hngt] at hq
          exact (of_decide_eq_true (List.mem_filter.mp hq).2).1)
        (fun q _ _ => rfl)
        (by
          rw [pointsBetween, if_neg hngt]
          exact List.Pairwise.filter _ hsorted)
        (fun r' _ hlt hle => absurd (lt_of_lt_of_le hlt hle) (lt_irrefl _))
        i p dd c hiphase hpf r hr h1 h2
      rcases hres with ⟨j, hj, hjget⟩ | hfalse
      · exact ⟨j, hj, by
          rw [List.get?_append (lt_trans hj hilt)]
          exact hjget⟩
      · exact absurd hfalse id
    · -- forward seek: f < t
      have hsorted := hfwd hft2
      have hbounds : f < p ∧ p ≤ t := by
        have hm := hpmem
        rw [pointsBetween, if_pos hft2] at hm
        exact of_decide_eq_true (List.mem_filter.mp hm).2
      rw [min_eq_left (le_of_lt hbounds.1)] at h1
      rw [max_eq_right (le_of_lt hbounds.1)] at h2
      have hres := phase_fwd ranges f _ hd (pointsBetween pts f t) f
        (fun _ => False) (le_refl f)
        (fun q hq => by
          rw [pointsBetween, if_pos hft2] at hq
          exact (of_decide_eq_true (List.mem_filter.mp hq).2).1)
        (by
          rw [pointsBetween, if_pos hft2]
          exact List.Pairwise.filter _ hsorted)
        (fun r' _ hlt hle => absurd (lt_of_le_of_lt hle hlt) (lt_irrefl _))
        i p dd c hiphase r hr h1 h2
      rcases hres with ⟨j, hj, hjget⟩ | hfalse
      · exact ⟨j, hj, by
          rw [List.get?_append (lt_trans hj hilt)]
          exact hjget⟩
      · exact absurd hfalse id

theorem c2_ranges_settle_amended_witness :
    (1 : ℚ) = 1 ∧
    ∀ r ∈ [((0 : ℚ), (4 : ℚ))], min 0 1 ≤ r.1 + r.2 → r.1 ≤ max 0 1 →
      ∃ j, j < 1 ∧ (seekDirectTrace [(0, 4)] [1, 3] 0 5).get? j =
        some (Ev.rangeEmit r.1 r.2 (clamp (((1 : ℚ) - r.1) / r.2) 0 1)) :=
  c2_ranges_settle_amended [(0, 4)] [1, 3] 0 5 (by decide)
    (fun _ => by decide) (fun h => absurd h (by norm_num)) 1 1 1 1
    (by
      simp only [seekDirectTrace, seekPointsTraceFn, pointsBetween, pointPhase,
        seekRangesTrace, clamp, List.filter]
      norm_num [List.filterMap])
    (by norm_num)

/-- **C2 (counterexample)**: a backward seek from `2` to `0` with a
registered point at `2` (the starting position) and a registered range
`[1, 2]`: the point fires first, at trace index 0, although the range's
interval intersects the traversed-so-far interval `[2, 2]` and has received
no progress emission at all before the point's event — the claim's "before
the point's own event fires" fails for the point at the seek's starting
position. -/
theorem c2_ranges_settle_counterexample :
    seekDirectTrace [(1, 1)] [2] 2 0 =
      [Ev.pointEmit 2 (-1) 2, Ev.rangeEmit 1 1 0] ∧
    (min (2 : ℚ) 2 ≤ 1 + 1 ∧ (1 : ℚ) ≤ max (2 : ℚ) 2 ∧ (0 : ℚ) < 1) ∧
    ¬ ∃ j, j < 0 ∧ (seekDirectTrace [(1, 1)] [2] 2 0).get? j =
      some (Ev.rangeEmit 1 1 (clamp (((2 : ℚ) - 1) / 1) 0 1)) := by
  refine ⟨?_, by norm_num, ?_⟩
  · simp only [seekDirectTrace, seekPointsTraceFn, pointsBetween, pointPhase,
      seekRangesTrace, clamp, List.filter]
    norm_num [List.filterMap]
  · rintro ⟨j, hj, _⟩
    omega

end TimelineSpec
